import Mathlib

/-!
Verification of the zearch in-memory full-text search engine (src/src/lib.rs).

The development shallowly embeds the code: strings are Lean `String`s,
document-id sets (`RoaringBitmap`) are `Finset ℕ`, the fst map is an
association list sorted by key, and the search driver loop is a fuel-indexed
step function whose `failed` flag models a Rust panic.

External crates are embedded through the contracts stated for them:
`fst::automaton::Levenshtein` accepts exactly the keys at plain Levenshtein
distance at most `k` (its `starts_with` closure accepts keys having such a
prefix), and `text_distance::DamerauLevenshtein { restricted: true }` is the
restricted (adjacent-transposition) edit distance.

The `ranking_rules` module of the repository (the Word, Typo and Exact stage
implementations) is not part of the sources provided, so those stages are
modelled from the specification, as marked on each definition.
-/

namespace Zearch

/-! ## Edit distances (external crates, embedded from their contracts) -/

/-- Fuel-indexed plain Levenshtein distance (structural recursion so that
the kernel can evaluate it; the fuel never runs out when it starts at the
combined length, since every recursive call removes at least one
character). -/
def levF : ℕ → List Char → List Char → ℕ
  | 0, xs, ys => xs.length + ys.length
  | _, [], ys => ys.length
  | _, xs, [] => xs.length
  | fuel + 1, x :: xs, y :: ys =>
    min (min (levF fuel xs (y :: ys) + 1) (levF fuel (x :: xs) ys + 1))
      (levF fuel xs ys + (if x = y then 0 else 1))

/-- Plain Levenshtein distance on character lists: unit-cost insertions,
deletions and substitutions.  This is the distance bounded by the
`fst::automaton::Levenshtein` automaton. -/
def lev (xs ys : List Char) : ℕ :=
  levF (xs.length + ys.length) xs ys

/-- Fuel-indexed restricted Damerau-Levenshtein distance. -/
def osaF : ℕ → List Char → List Char → ℕ
  | 0, xs, ys => xs.length + ys.length
  | _, [], ys => ys.length
  | _, xs, [] => xs.length
  | fuel + 1, x :: xs, y :: ys =>
    let base := min (min (osaF fuel xs (y :: ys) + 1) (osaF fuel (x :: xs) ys + 1))
      (osaF fuel xs ys + (if x = y then 0 else 1))
    match xs, ys with
    | x2 :: xs2, y2 :: ys2 =>
      if x = y2 ∧ x2 = y then min base (osaF fuel xs2 ys2 + 1) else base
    | _, _ => base

/-- Restricted Damerau-Levenshtein distance (optimal string alignment):
unit-cost insertions, deletions, substitutions, plus unit-cost transposition
of two adjacent characters.  Embeds
`text_distance::DamerauLevenshtein { restricted: true }`. -/
def osa (xs ys : List Char) : ℕ :=
  osaF (xs.length + ys.length) xs ys

theorem osaF_le_levF : ∀ (fuel : ℕ) (xs ys : List Char),
    osaF fuel xs ys ≤ levF fuel xs ys := by
  intro fuel
  induction fuel with
  | zero => intro xs ys; simp [osaF, levF]
  | succ n ih =>
    intro xs ys
    match xs, ys with
    | [], ys => simp [osaF, levF]
    | x :: xs, [] => simp [osaF, levF]
    | x :: xs, y :: ys =>
      have h1 := ih xs (y :: ys)
      have h2 := ih (x :: xs) ys
      have h3 := ih xs ys
      rcases xs with - | ⟨x2, xs2⟩
      · rcases ys with - | ⟨y2, ys2⟩
        · simp only [osaF, levF] at h1 h2 h3 ⊢
          by_cases hxy : x = y <;> simp only [hxy, if_pos, if_neg, if_true, if_false] at * <;>
            omega
        · simp only [osaF, levF] at h1 h2 h3 ⊢
          by_cases hxy : x = y <;> simp only [hxy, if_pos, if_neg, if_true, if_false] at * <;>
            omega
      · rcases ys with - | ⟨y2, ys2⟩
        · simp only [osaF, levF] at h1 h2 h3 ⊢
          by_cases hxy : x = y <;> simp only [hxy, if_pos, if_neg, if_true, if_false] at * <;>
            omega
        · simp only [osaF, levF] at h1 h2 h3 ⊢
          by_cases htr : x = y2 ∧ x2 = y
          · rw [if_pos htr]
            by_cases hxy : x = y <;>
              simp only [hxy, if_pos, if_neg, if_true, if_false] at * <;> omega
          · rw [if_neg htr]
            by_cases hxy : x = y <;>
              simp only [hxy, if_pos, if_neg, if_true, if_false] at * <;> omega

/-- The restricted distance never exceeds the plain Levenshtein distance:
every Levenshtein edit script is also an OSA edit script. -/
theorem osa_le_lev (xs ys : List Char) : osa xs ys ≤ lev xs ys :=
  osaF_le_levF (xs.length + ys.length) xs ys

/-! ## Normalization (`normalize` in lib.rs) -/

/-- Rust `char::to_ascii_lowercase`: adds 32 to ASCII uppercase letters and
leaves every other character (including non-ASCII letters) unchanged. -/
def toAsciiLower (c : Char) : Char :=
  if 0x41 ≤ c.toNat ∧ c.toNat ≤ 0x5A then Char.ofNat (c.toNat + 32) else c

/-- Rust `char::is_ascii_punctuation`. -/
def isAsciiPunct (c : Char) : Bool :=
  (0x21 ≤ c.toNat && c.toNat ≤ 0x2F) || (0x3A ≤ c.toNat && c.toNat ≤ 0x40) ||
  (0x5B ≤ c.toNat && c.toNat ≤ 0x60) || (0x7B ≤ c.toNat && c.toNat ≤ 0x7E)

/-- Rust `char::is_ascii_graphic` (printable ASCII except space). -/
def isAsciiGraphic (c : Char) : Bool :=
  0x21 ≤ c.toNat && c.toNat ≤ 0x7E

/-- Rust `char::is_ascii_control`. -/
def isAsciiCtrl (c : Char) : Bool :=
  c.toNat ≤ 0x1F || c.toNat = 0x7F

/-- The match arms of the `filter_map` closure of `normalize` (lib.rs lines
253-260), applied to the already-lowercased character, with the same arm
order as the source. -/
def normCharArms (c : Char) : Option Char :=
  if c = 'á' ∨ c = 'â' ∨ c = 'à' ∨ c = 'ä' then some 'a'
  else if c = 'é' ∨ c = 'ê' ∨ c = 'è' ∨ c = 'ë' then some 'e'
  else if c = 'í' ∨ c = 'î' ∨ c = 'ì' ∨ c = 'ï' then some 'i'
  else if c = 'ó' ∨ c = 'ô' ∨ c = 'ò' ∨ c = 'ö' then some 'o'
  else if c = 'ú' ∨ c = 'û' ∨ c = 'ù' ∨ c = 'ü' then some 'u'
  else if isAsciiPunct c || !isAsciiGraphic c || isAsciiCtrl c then none
  else some c

/-- One character of `normalize`: the `filter_map` closure matches on
`c.to_ascii_lowercase()`. -/
def normChar (c0 : Char) : Option Char :=
  normCharArms (toAsciiLower c0)

/-- The `normalize` function of lib.rs. -/
def normalize (s : String) : String :=
  ⟨s.data.filterMap normChar⟩

/-- Whitespace splitting (Rust `str::split_whitespace`): splits at runs of
whitespace, never yielding empty tokens. -/
def splitWsAux : List Char → List Char → List (List Char)
  | [], acc => if acc.isEmpty then [] else [acc.reverse]
  | c :: cs, acc =>
    if c.isWhitespace then
      if acc.isEmpty then splitWsAux cs []
      else acc.reverse :: splitWsAux cs []
    else splitWsAux cs (c :: acc)

/-- Tokenization of a document or query into whitespace-separated words. -/
def splitWhitespace (s : String) : List String :=
  (splitWsAux s.data []).map fun l => ⟨l⟩

/-! ## Data model -/

/-- Document-id set: embeds `roaring::RoaringBitmap` (a set of u32 ids). -/
abbrev Bitmap := Finset ℕ

/-- The `Index` struct of lib.rs: document texts, the fst map from
normalized word to bucket id (kept as a key-sorted association list),
and the per-bucket document-id bitmaps. -/
structure Index where
  documents : List String
  fst : List (String × ℕ)
  bitmaps : List Bitmap

/-! ## Index construction (`Index::construct`) -/

/-- All (document id, normalized word) pairs of the corpus, in corpus order,
as produced by the `flat_map` in `Index::construct`. -/
def corpusWords (documents : List String) : List (ℕ × String) :=
  documents.enum.flatMap fun p => (splitWhitespace p.2).map fun w => (p.1, normalize w)

/-- Strict lexicographic order on character lists, comparing characters by
scalar value (on the ASCII output of `normalize` this coincides with the
byte order used by Rust `String`'s `Ord`). -/
def listLt : List Char → List Char → Bool
  | [], [] => false
  | [], _ :: _ => true
  | _ :: _, [] => false
  | a :: as, b :: bs =>
    if a.toNat < b.toNat then true
    else if a.toNat = b.toNat then listLt as bs
    else false

/-- Reflexive lexicographic order on character lists. -/
def listLe : List Char → List Char → Bool
  | [], _ => true
  | _ :: _, [] => false
  | a :: as, b :: bs =>
    if a.toNat < b.toNat then true
    else if a.toNat = b.toNat then listLe as bs
    else false

/-- Rust `String` strict comparison (byte order; ASCII here). -/
def strLt (s t : String) : Bool := listLt s.data t.data

/-- Rust `String` comparison (byte order; ASCII here). -/
def strLe (s t : String) : Bool := listLe s.data t.data

theorem listLe_trans : ∀ {a b c : List Char},
    listLe a b = true → listLe b c = true → listLe a c = true := by
  intro a
  induction a with
  | nil => intro b c _ _; rw [listLe]
  | cons x as ih =>
    intro b c hab hbc
    match b, c with
    | [], _ => rw [listLe] at hab; cases hab
    | _ :: _, [] => rw [listLe] at hbc; cases hbc
    | y :: bs, z :: cs =>
      rw [listLe] at hab hbc ⊢
      by_cases h1 : x.toNat < y.toNat
      · by_cases h2 : y.toNat < z.toNat
        · rw [if_pos (by omega)]
        · rw [if_neg h2] at hbc
          by_cases h3 : y.toNat = z.toNat
          · rw [if_pos (by omega)]
          · rw [if_neg h3] at hbc; cases hbc
      · rw [if_neg h1] at hab
        by_cases h1e : x.toNat = y.toNat
        · rw [if_pos h1e] at hab
          by_cases h2 : y.toNat < z.toNat
          · rw [if_pos (by omega)]
          · rw [if_neg h2] at hbc
            by_cases h3 : y.toNat = z.toNat
            · rw [if_pos h3] at hbc
              rw [if_neg (by omega), if_pos (by omega)]
              exact ih hab hbc
            · rw [if_neg h3] at hbc; cases hbc
        · rw [if_neg h1e] at hab; cases hab

theorem listLe_total : ∀ {a b : List Char}, listLe a b = false → listLe b a = true := by
  intro a
  induction a with
  | nil => intro b h; rw [listLe] at h; cases h
  | cons x as ih =>
    intro b h
    match b with
    | [] => rw [listLe]
    | y :: bs =>
      rw [listLe] at h ⊢
      by_cases h1 : x.toNat < y.toNat
      · rw [if_pos h1] at h; cases h
      · rw [if_neg h1] at h
        by_cases h2 : x.toNat = y.toNat
        · rw [if_pos h2] at h
          rw [if_neg (by omega), if_pos (by omega)]
          exact ih h
        · rw [if_pos (by omega)]

theorem char_toNat_inj {a b : Char} (h : a.toNat = b.toNat) : a = b := by
  rw [← Char.ofNat_toNat a, ← Char.ofNat_toNat b, h]

theorem listLe_ne_lt : ∀ {a b : List Char},
    listLe a b = true → a ≠ b → listLt a b = true := by
  intro a
  induction a with
  | nil =>
    intro b hle hne
    match b with
    | [] => exact absurd rfl hne
    | y :: bs => rw [listLt]
  | cons x as ih =>
    intro b hle hne
    match b with
    | [] => rw [listLe] at hle; cases hle
    | y :: bs =>
      rw [listLe] at hle
      rw [listLt]
      by_cases h1 : x.toNat < y.toNat
      · rw [if_pos h1]
      · rw [if_neg h1] at hle ⊢
        by_cases h2 : x.toNat = y.toNat
        · rw [if_pos h2] at hle ⊢
          have hx : x = y := char_toNat_inj h2
          subst hx
          refine ih hle ?_
          intro hcontra
          exact hne (by rw [hcontra])
        · rw [if_neg h2] at hle; cases hle

/-- Insertion into a list sorted by normalized word. -/
def insertSorted (p : ℕ × String) : List (ℕ × String) → List (ℕ × String)
  | [] => [p]
  | q :: rest => if strLe p.2 q.2 = true then p :: q :: rest else q :: insertSorted p rest

/-- Sorting of the (id, word) pairs by word, refining
`sort_unstable_by(|(_, left), (_, right)| left.cmp(right))` (the order of
ids within one word group is unspecified by the source and irrelevant:
the groups, and therefore the map and the bitmaps, do not depend on it). -/
def sortWords (l : List (ℕ × String)) : List (ℕ × String) :=
  l.foldr insertSorted []

theorem strLe_trans {a b c : String} (h1 : strLe a b = true) (h2 : strLe b c = true) :
    strLe a c = true :=
  listLe_trans h1 h2

theorem strLe_total {a b : String} (h : strLe a b = false) : strLe b a = true :=
  listLe_total h

theorem str_data_inj {a b : String} (h : a.data = b.data) : a = b :=
  String.ext h

theorem strLe_ne_lt {a b : String} (h : strLe a b = true) (hne : a ≠ b) :
    strLt a b = true :=
  listLe_ne_lt h fun hd => hne (str_data_inj hd)

/-- Contract of `fst::MapBuilder::insert`: succeeds exactly when the new key
is strictly greater than the last inserted key. -/
def mapInsertOk (map : List (String × ℕ)) (word : String) : Bool :=
  match map.getLast? with
  | none => true
  | some e => strLt e.1 word

/-- The grouping loop of `Index::construct` (lib.rs lines 38-47).  `none`
models a panic of one of the two `unwrap`s: a failed `MapBuilder::insert`
or `bitmaps.last_mut()` on an empty vector. -/
def buildLoop : List (ℕ × String) → Option String → List (String × ℕ) → List Bitmap →
    Option (List (String × ℕ) × List Bitmap)
  | [], _, map, bms => some (map, bms)
  | (id, word) :: rest, lastWord, map, bms =>
    if some word ≠ lastWord then
      if mapInsertOk map word then
        buildLoop rest (some word) (map ++ [(word, bms.length)]) (bms ++ [{id}])
      else none
    else
      match bms.getLast? with
      | none => none
      | some b => buildLoop rest lastWord map (bms.dropLast ++ [insert id b])

/-- The `Index::construct` entry point; `none` models a panic. -/
def construct (documents : List String) : Option Index :=
  (buildLoop (sortWords (corpusWords documents)) none [] []).map fun p =>
    ⟨documents, p.1, p.2⟩

/-- Convenience total version of `construct` for concrete corpora (every
concrete use is backed by the proof that `construct` never fails). -/
def constructD (documents : List String) : Index :=
  (construct documents).getD ⟨documents, [], []⟩

theorem mem_insertSorted {x p : ℕ × String} : ∀ {l : List (ℕ × String)},
    x ∈ insertSorted p l → x = p ∨ x ∈ l := by
  intro l
  induction l with
  | nil =>
    intro h
    rw [insertSorted, List.mem_singleton] at h
    exact Or.inl h
  | cons q rest ih =>
    intro h
    rw [insertSorted] at h
    by_cases hle : strLe p.2 q.2 = true
    · rw [if_pos hle] at h
      exact List.mem_cons.mp h
    · rw [if_neg hle] at h
      rcases List.mem_cons.mp h with h | h
      · exact Or.inr (List.mem_cons.mpr (Or.inl h))
      · rcases ih h with h | h
        · exact Or.inl h
        · exact Or.inr (List.mem_cons.mpr (Or.inr h))

theorem pairwise_insertSorted (p : ℕ × String) : ∀ (l : List (ℕ × String)),
    l.Pairwise (fun a b => strLe a.2 b.2 = true) →
    (insertSorted p l).Pairwise (fun a b => strLe a.2 b.2 = true) := by
  intro l
  induction l with
  | nil =>
    intro hp
    rw [insertSorted]
    exact List.pairwise_singleton _ _
  | cons q rest ih =>
    intro hp
    rcases List.pairwise_cons.mp hp with ⟨hq, hrest⟩
    rw [insertSorted]
    by_cases hle : strLe p.2 q.2 = true
    · rw [if_pos hle]
      refine List.pairwise_cons.mpr ⟨?_, hp⟩
      intro b hb
      rcases List.mem_cons.mp hb with h | h
      · subst h; exact hle
      · exact strLe_trans hle (hq b h)
    · rw [if_neg hle]
      refine List.pairwise_cons.mpr ⟨?_, ih hrest⟩
      intro b hb
      rcases mem_insertSorted hb with h | h
      · subst h
        exact strLe_total (Bool.eq_false_iff.mpr hle)
      · exact hq b h

theorem pairwise_sortWords (l : List (ℕ × String)) :
    (sortWords l).Pairwise (fun a b => strLe a.2 b.2 = true) := by
  induction l with
  | nil => simp [sortWords]
  | cons p rest ih => exact pairwise_insertSorted p _ ih

theorem buildLoop_isSome : ∀ (l : List (ℕ × String)) (lastW : Option String)
    (map : List (String × ℕ)) (bms : List Bitmap),
    l.Pairwise (fun a b => strLe a.2 b.2 = true) →
    (∀ w, lastW = some w → (∃ i, map.getLast? = some (w, i)) ∧ bms ≠ []) →
    (lastW = none → map = []) →
    (∀ w, lastW = some w → ∀ p ∈ l, strLe w p.2 = true) →
    (buildLoop l lastW map bms).isSome := by
  intro l
  induction l with
  | nil => intro lastW map bms _ _ _ _; simp [buildLoop]
  | cons hd rest ih =>
    intro lastW map bms hsorted hlast hnone hle
    obtain ⟨id, word⟩ := hd
    rcases List.pairwise_cons.mp hsorted with ⟨hhd, hrest⟩
    simp only [buildLoop]
    split
    · rename_i hne
      have hok : mapInsertOk map word = true := by
        cases lastW with
        | none =>
          have : map = [] := hnone rfl
          simp [mapInsertOk, this]
        | some w =>
          obtain ⟨⟨i, hmap⟩, -⟩ := hlast w rfl
          have hwle : strLe w word = true := hle w rfl (id, word) (List.mem_cons_self _ _)
          have hwne : word ≠ w := by
            intro h; exact hne (by simp [h])
          simp only [mapInsertOk, hmap]
          exact strLe_ne_lt hwle (Ne.symm hwne)
      rw [if_pos hok]
      refine ih (some word) _ _ hrest ?_ (by simp) ?_
      · intro w hw
        refine ⟨⟨bms.length, ?_⟩, by simp⟩
        injection hw with hw
        subst hw
        simp
      · intro w hw p hp
        injection hw with hw
        subst hw
        exact hhd p hp
    · rename_i heq
      have hlw : lastW = some word := by
        by_contra h
        exact heq (Ne.symm h)
      obtain ⟨-, hbms⟩ := hlast word hlw
      have : ∃ b, bms.getLast? = some b := by
        have h : bms.getLast?.isSome = true := List.getLast?_isSome.mpr hbms
        exact Option.isSome_iff_exists.mp h
      obtain ⟨b, hb⟩ := this
      rw [hb]
      refine ih lastW _ _ hrest ?_ (by simp [hlw]) ?_
      · intro w hw
        refine ⟨(hlast w hw).1, by simp⟩
      · intro w hw p hp
        exact hle w hw p (List.mem_cons_of_mem _ hp)

/-- C7: `construct` never fails on any list of document texts: the sorted
grouping makes the fst keys strictly increasing, so both internal panic
branches are unreachable. -/
theorem c7_construct_never_fails (documents : List String) :
    (construct documents).isSome := by
  have h := buildLoop_isSome (sortWords (corpusWords documents)) none [] []
    (pairwise_sortWords _) (by intro w hw; cases hw) (fun _ => rfl)
    (by intro w hw; cases hw)
  unfold construct
  cases hb : buildLoop (sortWords (corpusWords documents)) none [] [] with
  | none => rw [hb] at h; simp at h
  | some p => simp

/-! ## Queries and candidate generation -/

/-- The `RankingRule` enum of the ranking_rules module. -/
inductive RankingRule
  | Word
  | Typo
  | Exact
deriving DecidableEq

/-- The `Search` struct of lib.rs. -/
structure Search where
  input : String
  limit : ℕ
  rankingRules : List RankingRule

/-- The `Search::new` constructor: default limit 10, default rule pipeline
Word, Typo, Exact. -/
def Search.new (input : String) : Search :=
  ⟨input, 10, [RankingRule.Word, RankingRule.Typo, RankingRule.Exact]⟩

/-- The `WordCandidate` struct of lib.rs: one per surviving query word, with
four document-id bitmaps indexed by clamped typo distance 0..=3. -/
structure WordCandidate where
  original : String
  normalized : String
  index : ℕ
  typos : List Bitmap
deriving DecidableEq

/-- The `WordCandidate::new` constructor. -/
def WordCandidate.new (original normalized : String) (index : ℕ) : WordCandidate :=
  ⟨original, normalized, index, List.replicate 4 ∅⟩

/-- Acceptance contract of the bare `fst::automaton::Levenshtein` automaton:
keys at plain Levenshtein distance at most `k` from the query word. -/
def levAccepts (q : List Char) (k : ℕ) (w : List Char) : Bool :=
  decide (lev q w ≤ k)

/-- Acceptance contract of the Levenshtein automaton combined with
`starts_with`: keys having a prefix at plain Levenshtein distance at most
`k` from the query word. -/
def levStartsWithAccepts (q : List Char) (k : ℕ) (w : List Char) : Bool :=
  (List.range (w.length + 1)).any fun n => decide (lev q (w.take n) ≤ k)

/-- The (matched key, bucket id) pairs streamed by `self.fst.search(...)` in
`Index::get_candidates`: fst entries accepted by the automaton, in key
order.  `isLast` selects the prefix-closed automaton used for the last
query word. -/
def matchedEntries (idx : Index) (normalized : String) (typo : ℕ) (isLast : Bool) :
    List (String × ℕ) :=
  if isLast then idx.fst.filter fun e => levStartsWithAccepts normalized.data typo e.1.data
  else idx.fst.filter fun e => levAccepts normalized.data typo e.1.data

/-- Rust slice `other[0..other.len().min(n)]` (all words are ASCII after
normalization, so byte and character indices agree). -/
def truncTo (n : ℕ) (w : String) : String :=
  ⟨w.data.take n⟩

/-- The `WordCandidate::insert_with_maybe_typo` method: recompute the
restricted edit distance against the matched word truncated to the query
word's length, clamp it to 3, and union the bucket's bitmap into the
corresponding typo cell. -/
def insertWithMaybeTypo (c : WordCandidate) (other : String) (bm : Bitmap) : WordCandidate :=
  let distance := min (osa c.normalized.data (truncTo c.normalized.data.length other).data) 3
  { c with typos := c.typos.set distance (c.typos.getD distance ∅ ∪ bm) }

/-- The surviving query words of `Index::get_candidates`: whitespace-split,
paired with their normalization, empty normalizations dropped. -/
def queryWords (input : String) : List (String × String) :=
  ((splitWhitespace input).map fun w => (w, normalize w)).filter fun p => !(p.2 = "")

/-- The `Index::get_candidates` method: one `WordCandidate` per surviving
query word, filled by folding the automaton's matches through
`insert_with_maybe_typo`.  The allowed distance is one typo per three
characters of the normalized word, clamped at 3; the last position uses the
prefix-closed automaton. -/
def getCandidates (idx : Index) (search : Search) : List WordCandidate :=
  let words := queryWords search.input
  words.enum.map fun p =>
    let typo := min (p.2.2.data.length / 3) 3
    let entries := matchedEntries idx p.2.2 typo (p.1 = words.length - 1)
    entries.foldl
      (fun c e => insertWithMaybeTypo c e.1 ((idx.bitmaps.get? e.2).getD ∅))
      (WordCandidate.new p.2.1 p.2.2 p.1)

/-! ## Claims about normalization and candidate generation -/

theorem char_toNat_ofNat {n : ℕ} (h : n < 55296) : (Char.ofNat n).toNat = n := by
  simp [Char.ofNat, Nat.isValidChar, h, Char.toNat, Char.ofNatAux, UInt32.toNat, UInt32.ofNat']

theorem toAsciiLower_not_upper (a : Char) :
    ¬(0x41 ≤ (toAsciiLower a).toNat ∧ (toAsciiLower a).toNat ≤ 0x5A) := by
  unfold toAsciiLower
  by_cases h : 0x41 ≤ a.toNat ∧ a.toNat ≤ 0x5A
  · rw [if_pos h]
    rw [char_toNat_ofNat (by omega)]
    omega
  · rw [if_neg h]
    exact h

/-- C9 (counterexample): the uppercase accented letter in "É" and the letter
"ñ" are deleted by `normalize` instead of surviving as lowercase base Latin
letters: `to_ascii_lowercase` leaves non-ASCII characters unchanged, the
accent table only lists lowercase accented vowels, and every remaining
non-ASCII character falls into the removal arm. -/
theorem c9_counterexample : normalize "É" = "" ∧ normalize "ñ" = "" := by
  constructor <;> decide

theorem normCharArms_good {b c : Char} (hb : ¬(0x41 ≤ b.toNat ∧ b.toNat ≤ 0x5A))
    (h : normCharArms b = some c) :
    0x21 ≤ c.toNat ∧ c.toNat ≤ 0x7E ∧ isAsciiPunct c = false ∧
      ¬(0x41 ≤ c.toNat ∧ c.toNat ≤ 0x5A) := by
  rw [normCharArms] at h
  split at h
  · injection h with h
    subst h
    exact ⟨by decide, by decide, by decide, by decide⟩
  · split at h
    · injection h with h
      subst h
      exact ⟨by decide, by decide, by decide, by decide⟩
    · split at h
      · injection h with h
        subst h
        exact ⟨by decide, by decide, by decide, by decide⟩
      · split at h
        · injection h with h
          subst h
          exact ⟨by decide, by decide, by decide, by decide⟩
        · split at h
          · injection h with h
            subst h
            exact ⟨by decide, by decide, by decide, by decide⟩
          · split at h
            · cases h
            · rename_i hrem
              injection h with h
              subst h
              rw [Bool.or_eq_true, Bool.or_eq_true, not_or, not_or] at hrem
              obtain ⟨⟨hpunct, hgraph⟩, hctrl⟩ := hrem
              have hgraph2 : isAsciiGraphic b = true := by
                rcases Bool.eq_false_or_eq_true (isAsciiGraphic b) with hg | hg
                · exact hg
                · exact absurd (by rw [hg]; rfl) hgraph
              rw [isAsciiGraphic, Bool.and_eq_true, decide_eq_true_eq, decide_eq_true_eq]
                at hgraph2
              refine ⟨hgraph2.1, hgraph2.2, ?_, hb⟩
              rcases Bool.eq_false_or_eq_true (isAsciiPunct b) with hp | hp
              · exact absurd hp hpunct
              · exact hp

/-- C9 (amended): every character surviving `normalize` is a printable
non-punctuation non-uppercase ASCII character; ASCII uppercase is folded to
lowercase and the five lowercase accented vowel families are folded to their
base letters, but any other character — including uppercase accented or
non-Latin letters — is removed rather than folded. -/
theorem c9_amended :
    (∀ s : String, ∀ c ∈ (normalize s).data,
      0x21 ≤ c.toNat ∧ c.toNat ≤ 0x7E ∧ isAsciiPunct c = false ∧
        ¬(0x41 ≤ c.toNat ∧ c.toNat ≤ 0x5A)) ∧
    normalize "AbC" = "abc" ∧ normalize "été" = "ete" ∧ normalize "Â-ç1!" = "1" := by
  refine ⟨?_, by decide, by decide, by decide⟩
  intro s c hc
  have hc2 : c ∈ s.data.filterMap normChar := hc
  obtain ⟨a, ha, hna⟩ := List.mem_filterMap.mp hc2
  rw [normChar] at hna
  exact normCharArms_good (toAsciiLower_not_upper a) hna

/-- C9 (witness for the amended theorem): the letter of the token "x"
survives normalization as a printable, non-punctuation, non-uppercase
character. -/
theorem c9_amended_witness :
    ('x' ∈ (normalize "x").data) ∧
    (0x21 ≤ 'x'.toNat ∧ 'x'.toNat ≤ 0x7E ∧ isAsciiPunct 'x' = false ∧
      ¬(0x41 ≤ 'x'.toNat ∧ 'x'.toNat ≤ 0x5A)) :=
  ⟨by decide, c9_amended.1 "x" 'x' (by decide)⟩

/-- C3 (counterexample): the non-last query word "abcd" has allowed distance
min(3, 4/3) = 1, and the indexed word "bacd" is at restricted (typo)
distance 1 from it, yet candidate generation does not match it: the fst
automaton bounds the plain Levenshtein distance, which is 2 here because a
transposition costs two plain edits.  So "matches iff typo distance ≤
min(3, n/3)" fails. -/
theorem c3_counterexample :
    min ((normalize "abcd").data.length / 3) 3 = 1 ∧
    osa (normalize "abcd").data (normalize "bacd").data = 1 ∧
    lev (normalize "abcd").data (normalize "bacd").data = 2 ∧
    ((getCandidates (constructD ["bacd"]) ⟨"abcd bacd", 10, []⟩).getD 0
      (WordCandidate.new "" "" 0)).typos = List.replicate 4 ∅ := by
  refine ⟨by decide, by decide, by decide, by decide⟩

/-- C3 (amended): for a non-last query word of normalized length n, every
indexed word matched by candidate generation is at typo (restricted edit)
distance at most min(3, n/3); in particular no indexed word at typo distance
min(3, n/3) + 1 or more is matched.  The converse direction of the original
claim fails (see the counterexample): the automaton bounds plain Levenshtein
distance, so a word within the typo-distance budget can still be rejected
when the budget is consumed by a transposition. -/
theorem c3_amended (idx : Index) (n : String) (e : String × ℕ)
    (he : e ∈ matchedEntries idx n (min (n.data.length / 3) 3) false) :
    osa n.data e.1.data ≤ min (n.data.length / 3) 3 := by
  rw [matchedEntries, if_neg (by simp)] at he
  have := (List.mem_filter.mp he).2
  rw [levAccepts, decide_eq_true_eq] at this
  exact le_trans (osa_le_lev _ _) this

/-- C3 (witness for the amended theorem): the single indexed word of the
corpus ["ab"] is matched exactly and its typo distance 0 is within the
budget min(3, 2/3) = 0. -/
theorem c3_amended_witness :
    (("ab", 0) ∈ matchedEntries (constructD ["ab"]) "ab"
      (min (("ab" : String).data.length / 3) 3) false) ∧
    osa ("ab" : String).data ("ab" : String).data ≤
      min (("ab" : String).data.length / 3) 3 :=
  ⟨by decide, c3_amended (constructD ["ab"]) "ab" ("ab", 0) (by decide)⟩

/-- C4: prefix matching applies only to the last surviving query word.  For
the corpus ["abc", "cdxx"] and the query "ab cd": the indexed word "abc" of
document 0 extends the first query word "ab" (plain distance 1) beyond its
allowed typo distance min(3, 2/3) = 0, and document 0 is matched through no
distance bucket of the first candidate (all four are empty); the indexed
word "cdxx" of document 1 starts with the last query word "cd", and document
1 is matched through the trailing prefix rule at recomputed distance 0. -/
theorem c4_trailing_word_only :
    (∀ j : ℕ, ((getCandidates (constructD ["abc", "cdxx"]) ⟨"ab cd", 10, []⟩).getD 0
      (WordCandidate.new "" "" 0)).typos.getD j ∅ = ∅) ∧
    1 ∈ ((getCandidates (constructD ["abc", "cdxx"]) ⟨"ab cd", 10, []⟩).getD 1
      (WordCandidate.new "" "" 0)).typos.getD 0 ∅ ∧
    min ((normalize "ab").data.length / 3) 3 = 0 ∧
    lev (normalize "ab").data (normalize "abc").data = 1 ∧
    (normalize "cdxx").data.take (normalize "cd").data.length = (normalize "cd").data := by
  refine ⟨?_, by decide, by decide, by decide, by decide⟩
  have h : ((getCandidates (constructD ["abc", "cdxx"]) ⟨"ab cd", 10, []⟩).getD 0
      (WordCandidate.new "" "" 0)).typos = List.replicate 4 ∅ := by decide
  intro j
  rw [h]
  match j with
  | 0 => rfl
  | 1 => rfl
  | 2 => rfl
  | 3 => rfl
  | m + 4 => rfl

theorem getD_set_self {l : List Bitmap} {d : ℕ} {v : Bitmap} (h : d < l.length) :
    (l.set d v).getD d ∅ = v := by
  rw [List.getD_eq_getD_get?, List.get?_set_eq_of_lt v h]
  rfl

theorem getD_set_ne {l : List Bitmap} {d j : ℕ} (v : Bitmap) (h : j ≠ d) :
    (l.set d v).getD j ∅ = l.getD j ∅ := by
  rw [List.getD_eq_getD_get?, List.get?_set_ne v _ (Ne.symm h), ← List.getD_eq_getD_get?]

/-- C8 (counterexample): for the corpus ["abcd abcx"] and the query "abcd",
document 0 appears in the distance-0 bucket (via the exactly matched word
"abcd") and also in the distance-1 bucket (via the matched word "abcx"), so
the four bitmaps of one WordCandidate are not pairwise disjoint and an id
can appear in more than one distance bucket. -/
theorem c8_counterexample :
    0 ∈ ((getCandidates (constructD ["abcd abcx"]) ⟨"abcd", 10, []⟩).getD 0
      (WordCandidate.new "" "" 0)).typos.getD 0 ∅ ∧
    0 ∈ ((getCandidates (constructD ["abcd abcx"]) ⟨"abcd", 10, []⟩).getD 0
      (WordCandidate.new "" "" 0)).typos.getD 1 ∅ ∧
    ((getCandidates (constructD ["abcd abcx"]) ⟨"abcd", 10, []⟩).getD 0
      (WordCandidate.new "" "" 0)).typos.getD 0 ∅ ∩
      ((getCandidates (constructD ["abcd abcx"]) ⟨"abcd", 10, []⟩).getD 0
        (WordCandidate.new "" "" 0)).typos.getD 1 ∅ ≠ ∅ := by
  refine ⟨by decide, by decide, by decide⟩

/-- C8 (amended): each single `insert_with_maybe_typo` call adds the matched
word's document ids to exactly one distance bucket — the recomputed
restricted distance clamped to 3 — leaving every other bucket unchanged.
Across several matched words, however, the same document id may be added to
different buckets, so the four bitmaps of a candidate need not be pairwise
disjoint (see the counterexample). -/
theorem c8_amended (c : WordCandidate) (other : String) (bm : Bitmap) (d j id : ℕ)
    (hlen : c.typos.length = 4)
    (hd : d = min (osa c.normalized.data (truncTo c.normalized.data.length other).data) 3) :
    (id ∈ (insertWithMaybeTypo c other bm).typos.getD j ∅ ↔
      id ∈ c.typos.getD j ∅ ∨ (j = d ∧ id ∈ bm)) := by
  rw [insertWithMaybeTypo]
  by_cases hj : j = d
  · subst hj
    rw [hd]
    rw [getD_set_self (by rw [hlen]; omega)]
    rw [Finset.mem_union]
    constructor
    · intro h
      rcases h with h | h
      · exact Or.inl h
      · exact Or.inr ⟨rfl, h⟩
    · intro h
      rcases h with h | ⟨-, h⟩
      · exact Or.inl h
      · exact Or.inr h
  · rw [getD_set_ne _ (by rw [hd] at hj; exact hj)]
    constructor
    · intro h
      exact Or.inl h
    · intro h
      rcases h with h | ⟨hjd, -⟩
      · exact h
      · exact absurd hjd hj

/-- C8 (witness for the amended theorem): inserting the bitmap {5} for the
exactly matching word "ab" puts id 5 into bucket 0 of a fresh candidate. -/
theorem c8_amended_witness :
    ((WordCandidate.new "ab" "ab" 0).typos.length = 4) ∧
    (0 = min (osa ("ab" : String).data
      (truncTo ("ab" : String).data.length "ab").data) 3) ∧
    (5 ∈ (insertWithMaybeTypo (WordCandidate.new "ab" "ab" 0) "ab" {5}).typos.getD 0 ∅ ↔
      5 ∈ (WordCandidate.new "ab" "ab" 0).typos.getD 0 ∅ ∨ (0 = 0 ∧ 5 ∈ ({5} : Bitmap))) :=
  ⟨by decide, by decide,
    c8_amended (WordCandidate.new "ab" "ab" 0) "ab" {5} 0 0 5 (by decide) (by decide)⟩

/-! ## Ranking-rule stages

The `ranking_rules` module (the `Word`, `Typo` and `Exact` implementations
of the `RankingRuleImpl` trait) is not among the provided sources; the three
stages below are modelled from the specification (section 4.3), while the
driver loop that runs them is embedded from `Index::search` in lib.rs. -/

/-- Union of one candidate's four distance buckets. -/
def candUnion (c : WordCandidate) : Bitmap :=
  c.typos.foldr (· ∪ ·) ∅

/-- Union of every candidate's buckets: the full candidate universe. -/
def universeOf (cands : List WordCandidate) : Bitmap :=
  (cands.map candUnion).foldr (· ∪ ·) ∅

/-- Intersection of a list of bitmaps; the empty list yields the empty set. -/
def interList : List Bitmap → Bitmap
  | [] => ∅
  | b :: bs => bs.foldl (· ∩ ·) b

/-- Modelled from the spec: the minimum distance bucket of a candidate
holding a given document id (0 when the id is in no bucket), used by the
Typo stage's total-distance ordering. -/
def minDistOf (c : WordCandidate) (d : ℕ) : ℕ :=
  ((List.range 4).find? fun j => decide (d ∈ c.typos.getD j ∅)).getD 0

/-- Modelled from the spec: total edit distance of a document across the
query's words. -/
def totalDistance (cands : List WordCandidate) (d : ℕ) : ℕ :=
  (cands.map fun c => minDistOf c d).sum

/-- Modelled from the spec: the subset of the handed-down selection at the
smallest represented total distance (the Typo stage's next bucket). -/
def typoBucketOf (cands : List WordCandidate) (sel : Bitmap) : Bitmap :=
  match (List.range (3 * cands.length + 1)).find?
      (fun lvl => decide ((sel.filter fun d => totalDistance cands d = lvl) ≠ ∅)) with
  | some lvl => sel.filter fun d => totalDistance cands d = lvl
  | none => sel

/-- Bitmap of the fst bucket registered for exactly the given normalized
word, or the empty set if the word is not indexed. -/
def lookupFst (idx : Index) (w : String) : Bitmap :=
  match idx.fst.find? fun e => decide (e.1 = w) with
  | some e => (idx.bitmaps.get? e.2).getD ∅
  | none => ∅

/-- Modelled from the spec: the documents of the handed-down selection that
contain every query word exactly (distance 0, non-prefix), used by the
Exact stage. -/
def exactSetOf (idx : Index) (cands : List WordCandidate) (sel : Bitmap) : Bitmap :=
  sel ∩ interList (cands.map fun c => lookupFst idx c.normalized)

/-- Modelled from the spec: the per-search state of one ranking stage.
The Word stage tracks how many leading query words are still in play (and
whether its first call has happened); Typo and Exact store the bucket they
most recently computed, which `current_results` returns and `cleanup`
purges. -/
inductive RuleState
  | wordRule (firstCall : Bool) (wordsInPlay : ℕ)
  | typoRule (stored : Bitmap)
  | exactRule (stored : Bitmap)
deriving DecidableEq

/-- Modelled from the spec: construction of a stage's per-search state
(`Word::new`, `Typo::new`, `Exact::new` of the missing ranking_rules
module). -/
def initRule (cands : List WordCandidate) : RankingRule → RuleState
  | RankingRule.Word => RuleState.wordRule true cands.length
  | RankingRule.Typo => RuleState.typoRule ∅
  | RankingRule.Exact => RuleState.exactRule ∅

/-- Modelled from the spec: the `current_results` method.  Word: the
intersection, over the words still in play, of each candidate's bitmaps
unioned across distance buckets; Typo and Exact: the stored bucket. -/
def currentResults (r : RuleState) (cands : List WordCandidate) : Bitmap :=
  match r with
  | RuleState.wordRule _ k => interList ((cands.take k).map candUnion)
  | RuleState.typoRule s => s
  | RuleState.exactRule s => s

/-- Modelled from the spec: the `next` method of each stage.  The second
component is `none` for `ControlFlow::Continue(())` and `some b` for
`ControlFlow::Break(b)`.  Word: first call accepts the full conjunction,
each later call drops the rightmost word and yields an empty bucket once
even the first word is drained.  Typo and Exact: refine the coarser stage's
selection (the full candidate universe when there is no coarser stage),
yielding an empty bucket when the selection is exhausted. -/
def ruleNext (idx : Index) (r : RuleState) (coarser : Option Bitmap)
    (cands : List WordCandidate) : RuleState × Option Bitmap :=
  match r with
  | RuleState.wordRule firstCall k =>
    if firstCall then (RuleState.wordRule false k, none)
    else if k - 1 = 0 then (RuleState.wordRule false (k - 1), some ∅)
    else (RuleState.wordRule false (k - 1), none)
  | RuleState.typoRule _ =>
    if coarser.getD (universeOf cands) = ∅ then (RuleState.typoRule ∅, some ∅)
    else (RuleState.typoRule (typoBucketOf cands (coarser.getD (universeOf cands))), none)
  | RuleState.exactRule _ =>
    if coarser.getD (universeOf cands) = ∅ then (RuleState.exactRule ∅, some ∅)
    else if exactSetOf idx cands (coarser.getD (universeOf cands)) = ∅ then
      (RuleState.exactRule (coarser.getD (universeOf cands)), none)
    else
      (RuleState.exactRule (exactSetOf idx cands (coarser.getD (universeOf cands))), none)

/-- Modelled from the spec: the `cleanup` method of each stage purges the
emitted bucket from the stage's own tracked state. -/
def ruleCleanup (r : RuleState) (b : Bitmap) : RuleState :=
  match r with
  | RuleState.wordRule f k => RuleState.wordRule f k
  | RuleState.typoRule s => RuleState.typoRule (s \ b)
  | RuleState.exactRule s => RuleState.exactRule (s \ b)

/-- The `Index::cleanup` associated function of lib.rs: subtract the used
bucket from every distance bucket of every candidate. -/
def cleanup (used : Bitmap) (cands : List WordCandidate) : List WordCandidate :=
  cands.map fun c => { c with typos := c.typos.map fun t => t \ used }

/-! ## The search driver loop (`Index::search`) -/

/-- One beyond the largest `usize` value. -/
def USIZE : ℕ := 2 ^ 64

/-- The index `current_ranking_rule - 1` computed by the `next!` macro:
`usize` subtraction wrapping modulo 2^64. -/
def prevRuleIdx (cursor : ℕ) : ℕ :=
  (cursor + (USIZE - 1)) % USIZE

/-- The state of one `Index::search` call: the stage objects, the cursor,
the emitted buckets, the live candidate set, plus flags recording that the
`break` was taken (`broke`) or that the code panicked (`failed`). -/
structure SearchState where
  rules : List RuleState
  cursor : ℕ
  res : List Bitmap
  candidates : List WordCandidate
  broke : Bool
  failed : Bool

/-- The coarser-stage argument built by the `next!` macro:
`ranking_rules.get(current_ranking_rule - 1)`, handing the finer stage the
coarser stage's current selection. -/
def coarserOf (s : SearchState) : Option Bitmap :=
  (s.rules.get? (prevRuleIdx s.cursor)).map fun r => currentResults r s.candidates

/-- One iteration of the driver loop of `Index::search` (lib.rs lines
97-131).  Indexing `ranking_rules[current_ranking_rule]` out of bounds is a
panic, modelled by the `failed` flag. -/
def stepBody (idx : Index) (s : SearchState) : SearchState :=
  match s.rules.get? s.cursor with
  | none => { s with failed := true }
  | some cur =>
    match (ruleNext idx cur (coarserOf s) s.candidates).2 with
    | none =>
      if s.cursor = s.rules.length - 1 then
        { s with
            rules := (s.rules.set s.cursor (ruleNext idx cur (coarserOf s) s.candidates).1).map
              fun r => ruleCleanup r
                (currentResults (ruleNext idx cur (coarserOf s) s.candidates).1 s.candidates),
            candidates := cleanup
              (currentResults (ruleNext idx cur (coarserOf s) s.candidates).1 s.candidates)
              s.candidates,
            res := s.res ++
              [currentResults (ruleNext idx cur (coarserOf s) s.candidates).1 s.candidates] }
      else
        { s with rules := s.rules.set s.cursor (ruleNext idx cur (coarserOf s) s.candidates).1,
                 cursor := s.cursor + 1 }
    | some bucket =>
      if bucket = ∅ then
        if s.cursor = 0 then
          { s with rules := s.rules.set s.cursor (ruleNext idx cur (coarserOf s) s.candidates).1,
                   broke := true }
        else
          { s with rules := s.rules.set s.cursor (ruleNext idx cur (coarserOf s) s.candidates).1,
                   cursor := s.cursor - 1, res := s.res ++ [bucket] }
      else
        { s with
            rules := (s.rules.set s.cursor (ruleNext idx cur (coarserOf s) s.candidates).1).map
              fun r => ruleCleanup r bucket,
            candidates := cleanup bucket s.candidates,
            res := s.res ++ [bucket] }

/-- Total number of document ids accumulated in the emitted buckets. -/
def sumRes (res : List Bitmap) : ℕ :=
  (res.map Finset.card).sum

/-- The loop's exit condition: the `while` guard has failed (the result is
full), the `break` was taken, or a panic occurred. -/
def stopCond (limit : ℕ) (s : SearchState) : Bool :=
  s.failed || (s.broke || decide (limit ≤ sumRes s.res))

/-- The driver loop, indexed by fuel: the Rust loop has no built-in bound
and can run as long as progress lasts, so the embedding iterates the loop
body up to `fuel` times, stopping as the code does. -/
def run (idx : Index) (limit : ℕ) : ℕ → SearchState → SearchState
  | 0, s => s
  | fuel + 1, s => if stopCond limit s then s else run idx limit fuel (stepBody idx s)

/-- The initial driver state of one search call. -/
def initState (cands : List WordCandidate) (q : Search) : SearchState :=
  ⟨q.rankingRules.map (initRule cands), 0, [], cands, false, false⟩

/-- The driver state reached by a search call after at most `fuel` loop
iterations. -/
def searchState (idx : Index) (q : Search) (fuel : ℕ) : SearchState :=
  run idx q.limit fuel (initState (getCandidates idx q) q)

/-- Ascending iteration over a bitmap, as `RoaringBitmap::iter` provides. -/
def bitmapList (b : Bitmap) : List ℕ :=
  (List.range (b.sup id + 1)).filter fun x => decide (x ∈ b)

/-- The document ids of the emitted buckets flattened in emission order. -/
def flattenIds (res : List Bitmap) : List ℕ :=
  res.flatMap bitmapList

/-- The `Index::search` entry point.  `some` is the returned list of
document texts; `none` models a run that panicked or did not reach the
loop's exit within `fuel` iterations. -/
def search (idx : Index) (q : Search) (fuel : ℕ) : Option (List String) :=
  if (getCandidates idx q).length = 0 then some []
  else if (searchState idx q fuel).failed then none
  else if (searchState idx q fuel).broke ||
      decide (q.limit ≤ sumRes (searchState idx q fuel).res) then
    some (((flattenIds (searchState idx q fuel).res).take q.limit).map
      fun i => (idx.documents.get? i).getD "")
  else none

/-! ## Disjointness of the emitted buckets (C1) -/

/-- Stage-internal tracked set: the Word stage tracks no bitmap of its own
(its selection is recomputed from the live candidates), Typo and Exact track
their stored bucket. -/
def storedOf : RuleState → Bitmap
  | RuleState.wordRule _ _ => ∅
  | RuleState.typoRule s => s
  | RuleState.exactRule s => s

theorem mem_foldr_union {x : ℕ} : ∀ {l : List Bitmap},
    x ∈ l.foldr (· ∪ ·) ∅ ↔ ∃ b ∈ l, x ∈ b := by
  intro l
  induction l with
  | nil => simp
  | cons b bs ih => simp [ih]

theorem mem_universeOf {x : ℕ} {cands : List WordCandidate} :
    x ∈ universeOf cands ↔ ∃ c ∈ cands, x ∈ candUnion c := by
  rw [universeOf, mem_foldr_union]
  simp

theorem foldl_inter_subset : ∀ (l : List Bitmap) (acc : Bitmap),
    l.foldl (· ∩ ·) acc ⊆ acc := by
  intro l
  induction l with
  | nil => intro acc; exact subset_rfl
  | cons x xs ih =>
    intro acc
    rw [List.foldl_cons]
    exact subset_trans (ih (acc ∩ x)) Finset.inter_subset_left

theorem interList_subset_head {b : Bitmap} {bs : List Bitmap} :
    interList (b :: bs) ⊆ b := by
  rw [interList]
  exact foldl_inter_subset bs b

theorem interList_take_subset_universe {cands : List WordCandidate} {k : ℕ} :
    interList ((cands.take k).map candUnion) ⊆ universeOf cands := by
  cases htake : cands.take k with
  | nil =>
    rw [List.map_nil, interList]
    exact Finset.empty_subset _
  | cons c cs =>
    rw [List.map_cons]
    refine subset_trans interList_subset_head ?_
    intro x hx
    refine mem_universeOf.mpr ⟨c, ?_, hx⟩
    exact List.take_subset k cands (htake ▸ List.mem_cons_self c cs)

theorem typoBucketOf_subset {cands : List WordCandidate} {sel : Bitmap} :
    typoBucketOf cands sel ⊆ sel := by
  rw [typoBucketOf]
  cases h : (List.range (3 * cands.length + 1)).find?
      (fun lvl => decide ((sel.filter fun d => totalDistance cands d = lvl) ≠ ∅)) with
  | none => exact subset_rfl
  | some lvl => exact Finset.filter_subset _ _

theorem exactSetOf_subset {idx : Index} {cands : List WordCandidate} {sel : Bitmap} :
    exactSetOf idx cands sel ⊆ sel := by
  rw [exactSetOf]
  exact Finset.inter_subset_left

theorem currentResults_subset {r : RuleState} {cands : List WordCandidate}
    (h : storedOf r ⊆ universeOf cands) :
    currentResults r cands ⊆ universeOf cands := by
  match r with
  | RuleState.wordRule f k => exact interList_take_subset_universe
  | RuleState.typoRule s => exact h
  | RuleState.exactRule s => exact h

theorem coarserOf_subset {s : SearchState}
    (hrules : ∀ r ∈ s.rules, storedOf r ⊆ universeOf s.candidates) :
    ∀ b, coarserOf s = some b → b ⊆ universeOf s.candidates := by
  intro b hb
  rw [coarserOf] at hb
  cases hget : s.rules.get? (prevRuleIdx s.cursor) with
  | none => rw [hget] at hb; cases hb
  | some r =>
    rw [hget] at hb
    injection hb with hb
    subst hb
    exact currentResults_subset (hrules r (List.get?_mem hget))

theorem getD_coarser_subset {coarser : Option Bitmap} {cands : List WordCandidate}
    (hc : ∀ b, coarser = some b → b ⊆ universeOf cands) :
    coarser.getD (universeOf cands) ⊆ universeOf cands := by
  cases coarser with
  | none => exact subset_rfl
  | some b => exact hc b rfl

theorem ruleNext_stored_subset (idx : Index) (r : RuleState) (coarser : Option Bitmap)
    (cands : List WordCandidate)
    (hc : ∀ b, coarser = some b → b ⊆ universeOf cands) :
    storedOf (ruleNext idx r coarser cands).1 ⊆ universeOf cands := by
  have hsel := getD_coarser_subset hc
  match r with
  | RuleState.wordRule firstCall k =>
    rw [ruleNext]
    by_cases hf : firstCall = true
    · rw [if_pos hf]
      exact Finset.empty_subset _
    · rw [if_neg hf]
      by_cases hk : k - 1 = 0
      · rw [if_pos hk]
        exact Finset.empty_subset _
      · rw [if_neg hk]
        exact Finset.empty_subset _
  | RuleState.typoRule s =>
    rw [ruleNext]
    by_cases hs : coarser.getD (universeOf cands) = ∅
    · rw [if_pos hs]
      exact Finset.empty_subset _
    · rw [if_neg hs]
      exact subset_trans typoBucketOf_subset hsel
  | RuleState.exactRule s =>
    rw [ruleNext]
    by_cases hs : coarser.getD (universeOf cands) = ∅
    · rw [if_pos hs]
      exact Finset.empty_subset _
    · rw [if_neg hs]
      by_cases hx : exactSetOf idx cands (coarser.getD (universeOf cands)) = ∅
      · rw [if_pos hx]
        exact hsel
      · rw [if_neg hx]
        exact subset_trans exactSetOf_subset hsel

theorem ruleNext_break_empty {idx : Index} {r : RuleState} {coarser : Option Bitmap}
    {cands : List WordCandidate} {b : Bitmap}
    (h : (ruleNext idx r coarser cands).2 = some b) : b = ∅ := by
  match r with
  | RuleState.wordRule firstCall k =>
    rw [ruleNext] at h
    by_cases hf : firstCall = true
    · rw [if_pos hf] at h; cases h
    · rw [if_neg hf] at h
      by_cases hk : k - 1 = 0
      · rw [if_pos hk] at h
        injection h with h
        exact h.symm
      · rw [if_neg hk] at h; cases h
  | RuleState.typoRule s =>
    rw [ruleNext] at h
    by_cases hs : coarser.getD (universeOf cands) = ∅
    · rw [if_pos hs] at h
      injection h with h
      exact h.symm
    · rw [if_neg hs] at h; cases h
  | RuleState.exactRule s =>
    rw [ruleNext] at h
    by_cases hs : coarser.getD (universeOf cands) = ∅
    · rw [if_pos hs] at h
      injection h with h
      exact h.symm
    · rw [if_neg hs] at h
      by_cases hx : exactSetOf idx cands (coarser.getD (universeOf cands)) = ∅
      · rw [if_pos hx] at h; cases h
      · rw [if_neg hx] at h; cases h

theorem foldr_union_sdiff (u : Bitmap) : ∀ (l : List Bitmap),
    (l.map (· \ u)).foldr (· ∪ ·) ∅ = l.foldr (· ∪ ·) ∅ \ u := by
  intro l
  induction l with
  | nil => simp
  | cons b bs ih =>
    rw [List.map_cons, List.foldr_cons, List.foldr_cons, ih, Finset.union_sdiff_distrib]

theorem candUnion_cleanup (used : Bitmap) (c : WordCandidate) :
    candUnion { c with typos := c.typos.map fun t => t \ used } = candUnion c \ used := by
  rw [candUnion, candUnion]
  exact foldr_union_sdiff used c.typos

theorem universeOf_cleanup (used : Bitmap) (cands : List WordCandidate) :
    universeOf (cleanup used cands) = universeOf cands \ used := by
  rw [universeOf, universeOf, cleanup, List.map_map]
  have hmap : (cands.map (candUnion ∘ fun c => { c with typos := c.typos.map fun t => t \ used }))
      = (cands.map candUnion).map (· \ used) := by
    rw [List.map_map]
    refine List.map_congr_left ?_
    intro c hc
    exact candUnion_cleanup used c
  rw [hmap]
  exact foldr_union_sdiff used (cands.map candUnion)

theorem storedOf_ruleCleanup (r : RuleState) (b : Bitmap) :
    storedOf (ruleCleanup r b) = storedOf r \ b := by
  match r with
  | RuleState.wordRule f k => simp [ruleCleanup, storedOf]
  | RuleState.typoRule s => simp [ruleCleanup, storedOf]
  | RuleState.exactRule s => simp [ruleCleanup, storedOf]

/-- The driver invariant behind C1: emitted buckets are pairwise disjoint,
every emitted bucket is disjoint from the live candidate universe, and
every stage's tracked set lives inside the live candidate universe. -/
def Inv (s : SearchState) : Prop :=
  s.res.Pairwise (fun a b => a ∩ b = ∅) ∧
  (∀ b ∈ s.res, b ∩ universeOf s.candidates = ∅) ∧
  (∀ r ∈ s.rules, storedOf r ⊆ universeOf s.candidates)

theorem inv_initState (cands : List WordCandidate) (q : Search) :
    Inv (initState cands q) := by
  refine ⟨List.Pairwise.nil, ?_, ?_⟩
  · intro b hb
    cases hb
  · intro r hr
    rw [initState] at hr
    obtain ⟨rr, hrr, hr⟩ := List.mem_map.mp hr
    subst hr
    match rr with
    | RankingRule.Word => exact Finset.empty_subset _
    | RankingRule.Typo => exact Finset.empty_subset _
    | RankingRule.Exact => exact Finset.empty_subset _

theorem inv_push_cleanup {s : SearchState} {rules2 : List RuleState} {bucket : Bitmap}
    (hpw : s.res.Pairwise fun a b => a ∩ b = ∅)
    (hres : ∀ b ∈ s.res, b ∩ universeOf s.candidates = ∅)
    (hrules2 : ∀ r ∈ rules2, storedOf r ⊆ universeOf s.candidates)
    (hbsub : bucket ⊆ universeOf s.candidates) :
    Inv { s with rules := rules2.map fun r => ruleCleanup r bucket,
                 candidates := cleanup bucket s.candidates,
                 res := s.res ++ [bucket] } := by
  refine ⟨?_, ?_, ?_⟩
  · rw [List.pairwise_append]
    refine ⟨hpw, List.pairwise_singleton _ _, ?_⟩
    intro a ha b hb
    rw [List.mem_singleton] at hb
    rw [hb]
    have h1 : a ∩ bucket ⊆ a ∩ universeOf s.candidates :=
      Finset.inter_subset_inter subset_rfl hbsub
    rw [hres a ha] at h1
    exact Finset.subset_empty.mp h1
  · intro b hb
    simp only [universeOf_cleanup]
    rcases List.mem_append.mp hb with hb | hb
    · have h1 : b ∩ (universeOf s.candidates \ bucket) ⊆ b ∩ universeOf s.candidates :=
        Finset.inter_subset_inter subset_rfl Finset.sdiff_subset
      rw [hres b hb] at h1
      exact Finset.subset_empty.mp h1
    · rw [List.mem_singleton] at hb
      rw [hb]
      exact Finset.inter_sdiff_self bucket (universeOf s.candidates)
  · intro r hr
    simp only [universeOf_cleanup]
    obtain ⟨r0, hr0, hr⟩ := List.mem_map.mp hr
    subst hr
    rw [storedOf_ruleCleanup]
    exact Finset.sdiff_subset_sdiff (hrules2 r0 hr0) subset_rfl

theorem inv_stepBody (idx : Index) {s : SearchState} (h : Inv s) : Inv (stepBody idx s) := by
  obtain ⟨hpw, hres, hrules⟩ := h
  cases hget : s.rules.get? s.cursor with
  | none =>
    simp only [stepBody, hget]
    exact ⟨hpw, hres, hrules⟩
  | some cur =>
    have hc := coarserOf_subset hrules
    have hsub1 := ruleNext_stored_subset idx cur (coarserOf s) s.candidates hc
    have hrules2 : ∀ r ∈ s.rules.set s.cursor (ruleNext idx cur (coarserOf s) s.candidates).1,
        storedOf r ⊆ universeOf s.candidates := by
      intro r hr
      rcases List.mem_or_eq_of_mem_set hr with hr | hr
      · exact hrules r hr
      · subst hr
        exact hsub1
    cases hnext : (ruleNext idx cur (coarserOf s) s.candidates).2 with
    | none =>
      simp only [stepBody, hget, hnext]
      by_cases hfin : s.cursor = s.rules.length - 1
      · rw [if_pos hfin]
        exact inv_push_cleanup hpw hres hrules2 (currentResults_subset hsub1)
      · rw [if_neg hfin]
        exact ⟨hpw, hres, hrules2⟩
    | some bucket =>
      have hb : bucket = ∅ := ruleNext_break_empty hnext
      subst hb
      simp only [stepBody, hget, hnext, eq_self_iff_true, if_true]
      by_cases h0 : s.cursor = 0
      · rw [if_pos h0]
        exact ⟨hpw, hres, hrules2⟩
      · rw [if_neg h0]
        refine ⟨?_, ?_, hrules2⟩
        · rw [List.pairwise_append]
          refine ⟨hpw, List.pairwise_singleton _ _, ?_⟩
          intro a ha b hb
          rw [List.mem_singleton] at hb
          subst hb
          exact Finset.inter_empty a
        · intro b hb
          rcases List.mem_append.mp hb with hb | hb
          · exact hres b hb
          · rw [List.mem_singleton] at hb
            subst hb
            exact Finset.empty_inter _

theorem inv_run (idx : Index) (limit : ℕ) : ∀ (fuel : ℕ) {s : SearchState},
    Inv s → Inv (run idx limit fuel s) := by
  intro fuel
  induction fuel with
  | zero => intro s h; exact h
  | succ fuel ih =>
    intro s h
    rw [run]
    by_cases hst : stopCond limit s = true
    · rw [if_pos hst]
      exact h
    · rw [if_neg hst]
      exact ih (inv_stepBody idx h)

theorem mem_bitmapList {x : ℕ} {b : Bitmap} : x ∈ bitmapList b ↔ x ∈ b := by
  rw [bitmapList]
  constructor
  · intro h
    have := (List.mem_filter.mp h).2
    rw [decide_eq_true_eq] at this
    exact this
  · intro h
    refine List.mem_filter.mpr ⟨?_, by rw [decide_eq_true_eq]; exact h⟩
    refine List.mem_range.mpr ?_
    have hx0 : id x ≤ b.sup id := Finset.le_sup h
    have hx : x ≤ b.sup id := hx0
    omega

theorem nodup_bitmapList (b : Bitmap) : (bitmapList b).Nodup :=
  List.Nodup.filter _ (List.nodup_range _)

theorem nodup_flattenIds : ∀ {res : List Bitmap},
    res.Pairwise (fun a b => a ∩ b = ∅) → (flattenIds res).Nodup := by
  intro res
  induction res with
  | nil => intro h; exact List.nodup_nil
  | cons b rest ih =>
    intro h
    rcases List.pairwise_cons.mp h with ⟨hb, hrest⟩
    rw [flattenIds, List.flatMap_cons]
    rw [List.nodup_append]
    refine ⟨nodup_bitmapList b, ih hrest, ?_⟩
    intro x hx hx2
    have hxb : x ∈ b := mem_bitmapList.mp hx
    obtain ⟨b2, hb2, hxb2⟩ := List.mem_flatMap.mp hx2
    have hxb2 : x ∈ b2 := mem_bitmapList.mp hxb2
    have hdisj := hb b2 hb2
    have : x ∈ b ∩ b2 := Finset.mem_inter.mpr ⟨hxb, hxb2⟩
    rw [hdisj] at this
    cases this

/-- C1: for every corpus, query (with its limit and rule configuration) and
fuel bound, the buckets emitted by the search driver are pairwise disjoint
and flattening them in emission order yields each document id at most once:
every emitted bucket is drawn from the live candidate universe, from which
already-placed ids have been subtracted. -/
theorem c1_buckets_disjoint (idx : Index) (q : Search) (fuel : ℕ) :
    ((searchState idx q fuel).res.Pairwise fun a b => a ∩ b = ∅) ∧
    (flattenIds (searchState idx q fuel).res).Nodup := by
  have hinv : Inv (searchState idx q fuel) := by
    rw [searchState]
    exact inv_run idx q.limit fuel (inv_initState _ _)
  exact ⟨hinv.1, nodup_flattenIds hinv.1⟩

/-! ## Limit monotonicity (C6) -/

theorem prefRefl {α : Type} (l : List α) : l <+: l :=
  ⟨[], List.append_nil l⟩

theorem run_stop {idx : Index} {limit : ℕ} {s : SearchState} (h : stopCond limit s = true) :
    ∀ fuel, run idx limit fuel s = s := by
  intro fuel
  cases fuel with
  | zero => rfl
  | succ fuel => rw [run, if_pos h]

theorem stepBody_res (idx : Index) (s : SearchState) :
    (stepBody idx s).res = s.res ∨ ∃ b, (stepBody idx s).res = s.res ++ [b] := by
  cases hget : s.rules.get? s.cursor with
  | none =>
    simp only [stepBody, hget]
    exact Or.inl trivial
  | some cur =>
    cases hnext : (ruleNext idx cur (coarserOf s) s.candidates).2 with
    | none =>
      simp only [stepBody, hget, hnext]
      by_cases hfin : s.cursor = s.rules.length - 1
      · rw [if_pos hfin]
        exact Or.inr ⟨_, rfl⟩
      · rw [if_neg hfin]
        exact Or.inl rfl
    | some bucket =>
      simp only [stepBody, hget, hnext]
      by_cases hb : bucket = ∅
      · rw [if_pos hb]
        by_cases h0 : s.cursor = 0
        · rw [if_pos h0]
          exact Or.inl rfl
        · rw [if_neg h0]
          exact Or.inr ⟨_, rfl⟩
      · rw [if_neg hb]
        exact Or.inr ⟨_, rfl⟩

theorem res_isPrefix_stepBody (idx : Index) (s : SearchState) :
    s.res <+: (stepBody idx s).res := by
  rcases stepBody_res idx s with h | ⟨b, h⟩
  · rw [h]
  · rw [h]
    exact ⟨[b], rfl⟩

theorem res_isPrefix_run (idx : Index) (limit : ℕ) : ∀ (fuel : ℕ) (s : SearchState),
    s.res <+: (run idx limit fuel s).res := by
  intro fuel
  induction fuel with
  | zero => intro s; exact prefRefl _
  | succ fuel ih =>
    intro s
    rw [run]
    by_cases hst : stopCond limit s = true
    · rw [if_pos hst]
    · rw [if_neg hst]
      exact List.IsPrefix.trans (res_isPrefix_stepBody idx s) (ih (stepBody idx s))

theorem stopCond_parts {limit : ℕ} {s : SearchState} (h : ¬ stopCond limit s = true) :
    s.failed = false ∧ s.broke = false ∧ sumRes s.res < limit := by
  have hf : s.failed = false := by
    rcases Bool.eq_false_or_eq_true s.failed with hf | hf
    · exact absurd (by rw [stopCond, hf]; rfl) h
    · exact hf
  have hb : s.broke = false := by
    rcases Bool.eq_false_or_eq_true s.broke with hb | hb
    · exact absurd (by rw [stopCond, hf, hb]; rfl) h
    · exact hb
  refine ⟨hf, hb, ?_⟩
  rcases Bool.eq_false_or_eq_true (decide (limit ≤ sumRes s.res)) with hd | hd
  · exact absurd (by rw [stopCond, hf, hb, hd]; rfl) h
  · have := of_decide_eq_false hd
    omega

theorem stopCond_mono {L L2 : ℕ} {s : SearchState} (hL : L ≤ L2)
    (h : ¬ stopCond L s = true) : ¬ stopCond L2 s = true := by
  obtain ⟨hf, hb, hsum⟩ := stopCond_parts h
  intro h2
  rw [stopCond, hf, hb, Bool.false_or, Bool.false_or] at h2
  have := of_decide_eq_true h2
  omega

theorem run_limit_base {idx : Index} {L L2 F2 : ℕ} {s : SearchState}
    (h1 : stopCond L s = true) :
    s.res <+: (run idx L2 F2 s).res ∧ (sumRes s.res < L → s = run idx L2 F2 s) := by
  by_cases hst : stopCond L2 s = true
  · rw [run_stop hst]
    exact ⟨prefRefl _, fun _ => rfl⟩
  · refine ⟨res_isPrefix_run idx L2 F2 s, ?_⟩
    intro hlt
    exfalso
    obtain ⟨hf, hb, hsum⟩ := stopCond_parts hst
    rw [stopCond, hf, hb, Bool.false_or, Bool.false_or] at h1
    have := of_decide_eq_true h1
    omega

theorem run_limit_mono (idx : Index) (L L2 : ℕ) (hL : L ≤ L2) :
    ∀ (F1 : ℕ) (s : SearchState) (F2 : ℕ),
    stopCond L (run idx L F1 s) = true →
    stopCond L2 (run idx L2 F2 s) = true →
    (run idx L F1 s).res <+: (run idx L2 F2 s).res ∧
    (sumRes (run idx L F1 s).res < L → run idx L F1 s = run idx L2 F2 s) := by
  intro F1
  induction F1 with
  | zero =>
    intro s F2 h1 h2
    simp only [run] at h1 ⊢
    exact run_limit_base h1
  | succ F1 ih =>
    intro s F2 h1 h2
    by_cases hstL : stopCond L s = true
    · rw [run_stop hstL] at h1 ⊢
      exact run_limit_base h1
    · rw [run, if_neg hstL] at h1 ⊢
      have hstL2 := stopCond_mono hL hstL
      cases F2 with
      | zero =>
        simp only [run] at h2
        exact absurd h2 hstL2
      | succ F2 =>
        rw [run, if_neg hstL2] at h2 ⊢
        exact ih (stepBody idx s) F2 h1 h2

theorem length_bitmapList (b : Bitmap) : (bitmapList b).length = b.card := by
  have hnd := nodup_bitmapList b
  have hts : (bitmapList b).toFinset = b := by
    ext x
    rw [List.mem_toFinset]
    exact mem_bitmapList
  conv_rhs => rw [← hts]
  exact (List.toFinset_card_of_nodup hnd).symm

theorem length_flattenIds : ∀ (res : List Bitmap), (flattenIds res).length = sumRes res := by
  intro res
  induction res with
  | nil => rfl
  | cons b rest ih =>
    rw [flattenIds, List.flatMap_cons, List.length_append, length_bitmapList]
    rw [flattenIds] at ih
    rw [ih]
    rfl

theorem flattenIds_isPrefix {r1 r2 : List Bitmap} (h : r1 <+: r2) :
    flattenIds r1 <+: flattenIds r2 := by
  obtain ⟨t, ht⟩ := h
  refine ⟨flattenIds t, ?_⟩
  rw [← ht, flattenIds, flattenIds, flattenIds, List.flatMap_append]

/-- C6: the result list has length at most the requested limit, and the
result for limit L is a prefix of the result for limit L + k on the same
corpus, query and rule configuration: the loop body never consults the
limit, so the run for the larger limit replays the same iterations and then
extends them. -/
theorem c6_limit_monotone (idx : Index) (input : String) (rules : List RankingRule)
    (L k F1 F2 : ℕ) (r1 r2 : List String)
    (h1 : search idx ⟨input, L, rules⟩ F1 = some r1)
    (h2 : search idx ⟨input, L + k, rules⟩ F2 = some r2) :
    r1.length ≤ L ∧ r1 <+: r2 := by
  have hcnd : getCandidates idx ⟨input, L + k, rules⟩ = getCandidates idx ⟨input, L, rules⟩ :=
    rfl
  have hss2 : searchState idx ⟨input, L + k, rules⟩ F2 =
      run idx (L + k) F2 (initState (getCandidates idx ⟨input, L, rules⟩) ⟨input, L, rules⟩) :=
    rfl
  have hss1 : searchState idx ⟨input, L, rules⟩ F1 =
      run idx L F1 (initState (getCandidates idx ⟨input, L, rules⟩) ⟨input, L, rules⟩) :=
    rfl
  rw [search, hss1] at h1
  rw [search, hcnd, hss2] at h2
  dsimp only at h1 h2
  by_cases h0 : (getCandidates idx ⟨input, L, rules⟩).length = 0
  · rw [if_pos h0] at h1 h2
    injection h1 with h1
    injection h2 with h2
    subst h1
    subst h2
    exact ⟨by simp, prefRefl _⟩
  · rw [if_neg h0] at h1 h2
    by_cases hf1 : (run idx L F1
        (initState (getCandidates idx ⟨input, L, rules⟩) ⟨input, L, rules⟩)).failed = true
    · rw [if_pos hf1] at h1
      cases h1
    · rw [if_neg hf1] at h1
      by_cases hf2 : (run idx (L + k) F2
          (initState (getCandidates idx ⟨input, L, rules⟩) ⟨input, L, rules⟩)).failed = true
      · rw [if_pos hf2] at h2
        cases h2
      · rw [if_neg hf2] at h2
        by_cases hb1 : ((run idx L F1
              (initState (getCandidates idx ⟨input, L, rules⟩) ⟨input, L, rules⟩)).broke ||
            decide (L ≤ sumRes (run idx L F1
              (initState (getCandidates idx ⟨input, L, rules⟩) ⟨input, L, rules⟩)).res)) =
            true
        swap
        · rw [if_neg hb1] at h1
          cases h1
        rw [if_pos hb1] at h1
        by_cases hb2 : ((run idx (L + k) F2
              (initState (getCandidates idx ⟨input, L, rules⟩) ⟨input, L, rules⟩)).broke ||
            decide (L + k ≤ sumRes (run idx (L + k) F2
              (initState (getCandidates idx ⟨input, L, rules⟩) ⟨input, L, rules⟩)).res)) =
            true
        swap
        · rw [if_neg hb2] at h2
          cases h2
        rw [if_pos hb2] at h2
        have hstop1 : stopCond L (run idx L F1
            (initState (getCandidates idx ⟨input, L, rules⟩) ⟨input, L, rules⟩)) = true := by
          rw [stopCond, Bool.eq_false_iff.mpr hf1, Bool.false_or]
          exact hb1
        have hstop2 : stopCond (L + k) (run idx (L + k) F2
            (initState (getCandidates idx ⟨input, L, rules⟩) ⟨input, L, rules⟩)) = true := by
          rw [stopCond, Bool.eq_false_iff.mpr hf2, Bool.false_or]
          exact hb2
        obtain ⟨hpre, heq⟩ := run_limit_mono idx L (L + k) (Nat.le_add_right L k) F1
          (initState (getCandidates idx ⟨input, L, rules⟩) ⟨input, L, rules⟩) F2 hstop1 hstop2
        injection h1 with h1
        injection h2 with h2
        constructor
        · rw [← h1]
          rw [List.length_map, List.length_take]
          omega
        · by_cases hsum : sumRes (run idx L F1
              (initState (getCandidates idx ⟨input, L, rules⟩) ⟨input, L, rules⟩)).res < L
          · have he := heq hsum
            rw [← h1, ← h2, ← he]
            have hlen : (flattenIds (run idx L F1
                (initState (getCandidates idx ⟨input, L, rules⟩)
                  ⟨input, L, rules⟩)).res).length ≤ L := by
              rw [length_flattenIds]
              omega
            rw [List.take_all_of_le hlen, List.take_all_of_le (le_trans hlen (by omega))]
          · obtain ⟨t, ht⟩ := flattenIds_isPrefix hpre
            have hlen1 : L ≤ (flattenIds (run idx L F1
                (initState (getCandidates idx ⟨input, L, rules⟩)
                  ⟨input, L, rules⟩)).res).length := by
              rw [length_flattenIds]
              omega
            have htake : (flattenIds (run idx (L + k) F2
                (initState (getCandidates idx ⟨input, L, rules⟩)
                  ⟨input, L, rules⟩)).res).take L =
                (flattenIds (run idx L F1
                  (initState (getCandidates idx ⟨input, L, rules⟩)
                    ⟨input, L, rules⟩)).res).take L := by
              rw [← ht, List.take_append_eq_append_take]
              have hz : L - (flattenIds (run idx L F1
                  (initState (getCandidates idx ⟨input, L, rules⟩)
                    ⟨input, L, rules⟩)).res).length = 0 := by omega
              rw [hz, List.take_zero, List.append_nil]
            rw [← h1, ← h2, ← htake]
            refine List.IsPrefix.map _ ?_
            have hpp := List.take_prefix L ((flattenIds (run idx (L + k) F2
                (initState (getCandidates idx ⟨input, L, rules⟩)
                  ⟨input, L, rules⟩)).res).take (L + k))
            rw [List.take_take, min_eq_left (Nat.le_add_right L k)] at hpp
            exact hpp

/-- C6 (witness): for the corpus ["a"] and the query "a" with the Word
stage, the results for limits 1 and 2 are both ["a"], of length at most 1
and one a prefix of the other. -/
theorem c6_limit_monotone_witness :
    (search (constructD ["a"]) ⟨"a", 1, [RankingRule.Word]⟩ 10 = some ["a"]) ∧
    (search (constructD ["a"]) ⟨"a", 1 + 1, [RankingRule.Word]⟩ 10 = some ["a"]) ∧
    (["a"].length ≤ 1 ∧ (["a"] : List String) <+: ["a"]) :=
  ⟨by decide, by decide,
    c6_limit_monotone (constructD ["a"]) "a" [RankingRule.Word] 1 1 10 10 ["a"] ["a"]
      (by decide) (by decide)⟩

/-! ## The empty rule configuration (C2) and the coarsest cursor (C10) -/

/-- C2 (counterexample): on the corpus ["a"], the query "a" with an empty
rule_stages list and the default limit 10, the first loop iteration indexes
`ranking_rules[0]` out of bounds: the search panics instead of returning a
single degenerate bucket. -/
theorem c2_counterexample :
    (searchState (constructD ["a"]) ⟨"a", 10, []⟩ 1).failed = true ∧
    search (constructD ["a"]) ⟨"a", 10, []⟩ 1 = none := by
  refine ⟨by decide, by decide⟩

/-- C2 (amended): whenever the configured rule list is empty, the query
yields at least one word candidate and the limit is positive, the driver
loop's first iteration indexes the empty rule vector out of bounds, so
search panics (a user-visible error) and returns no result — it does not
degenerate to one bucket with the unioned candidate set. -/
theorem c2_amended (idx : Index) (q : Search) (fuel : ℕ)
    (hrules : q.rankingRules = []) (hcands : ¬(getCandidates idx q).length = 0)
    (hlimit : 1 ≤ q.limit) (hfuel : 1 ≤ fuel) :
    (searchState idx q fuel).failed = true ∧ search idx q fuel = none := by
  have hfail : (searchState idx q fuel).failed = true := by
    rw [searchState]
    cases fuel with
    | zero => omega
    | succ fuel =>
      have hstop : ¬ stopCond q.limit (initState (getCandidates idx q) q) = true := by
        intro h
        rw [stopCond] at h
        simp only [initState, Bool.false_or] at h
        have : q.limit ≤ sumRes [] := of_decide_eq_true h
        rw [sumRes] at this
        simp at this
        omega
      rw [run, if_neg hstop]
      have hsb : stepBody idx (initState (getCandidates idx q) q) =
          { initState (getCandidates idx q) q with failed := true } := by
        have hrl : (initState (getCandidates idx q) q).rules.get?
            (initState (getCandidates idx q) q).cursor = none := by
          simp [initState, hrules]
        simp only [stepBody, hrl]
      rw [hsb]
      have hstop2 : stopCond q.limit
          { initState (getCandidates idx q) q with failed := true } = true := by
        rw [stopCond]
        rfl
      rw [run_stop hstop2]
  refine ⟨hfail, ?_⟩
  rw [search, if_neg hcands, if_pos hfail]

/-- C2 (witness for the amended theorem): concrete instance on the corpus
["a"] with query "a", empty rule list, limit 10 and one loop iteration. -/
theorem c2_amended_witness :
    ((⟨"a", 10, []⟩ : Search).rankingRules = []) ∧
    (¬(getCandidates (constructD ["a"]) ⟨"a", 10, []⟩).length = 0) ∧
    ((searchState (constructD ["a"]) ⟨"a", 10, []⟩ 2).failed = true ∧
      search (constructD ["a"]) ⟨"a", 10, []⟩ 2 = none) :=
  ⟨rfl, by decide,
    c2_amended (constructD ["a"]) ⟨"a", 10, []⟩ 2 rfl (by decide) (by decide) (by decide)⟩

/-- C10: in every driver iteration whose cursor sits at the coarsest stage
(position 0), the index `current_ranking_rule - 1` wraps in usize
arithmetic to 2^64 - 1, and the checked `get` lookup on the rule vector
returns `None`, so the stage's `next` receives no coarser stage. -/
theorem c10_coarsest_gets_none (s : SearchState) (h0 : s.cursor = 0)
    (hlen : s.rules.length < USIZE) :
    prevRuleIdx s.cursor = USIZE - 1 ∧ coarserOf s = none := by
  have hidx : prevRuleIdx s.cursor = USIZE - 1 := by
    rw [h0, prevRuleIdx, Nat.zero_add]
    exact Nat.mod_eq_of_lt (by rw [USIZE]; omega)
  refine ⟨hidx, ?_⟩
  rw [coarserOf, hidx]
  rw [List.get?_eq_none.mpr (by omega)]
  rfl

/-- C10 (witness): a driver state with one Typo stage and the cursor at the
coarsest position receives no coarser stage. -/
theorem c10_coarsest_gets_none_witness :
    prevRuleIdx (0 : ℕ) = USIZE - 1 ∧
    coarserOf ⟨[RuleState.typoRule ∅], 0, [], [], false, false⟩ = none := by
  have h := c10_coarsest_gets_none ⟨[RuleState.typoRule ∅], 0, [], [], false, false⟩ rfl
    (by show (1 : ℕ) < USIZE; rw [USIZE]; omega)
  exact h

/-! ## The reference scenario (C5) -/

/-- C5: on the corpus ["Tamo le plus beau", "tamo est très beau aussi"],
the query "tamo est" with only the Word stage and the default limit 10
returns exactly the two documents with the full-conjunction bucket {1}
first and the relaxed single-word bucket {0} second. -/
theorem c5_scenario_two :
    search (constructD ["Tamo le plus beau", "tamo est très beau aussi"])
        ⟨"tamo est", 10, [RankingRule.Word]⟩ 10 =
      some ["tamo est très beau aussi", "Tamo le plus beau"] ∧
    (searchState (constructD ["Tamo le plus beau", "tamo est très beau aussi"])
        ⟨"tamo est", 10, [RankingRule.Word]⟩ 10).res = [{1}, {0}] := by
  refine ⟨by decide, by decide⟩

end Zearch
